import Mathlib

/-! fdns: a shallow embedding of `src/fdns/fdns.go`

The Go program is a small authoritative DNS server.  This file embeds its
pure parts (record builders, `split255`), the per-name query handler and the
recursive registration `Domain.addHandler`, and proves properties about them.

Conventions of the embedding:

* a Go `string` is its byte sequence, `List UInt8`; `len(s)` is `List.length`;
* Go `int` loop counters are `Nat` (they only grow from 0 in steps of 255 and
  stay below `len(s) + 510`);
* `time.Duration` (an `int64`) is `Int`; the conversion `uint32(x)` is
  `x % 2^32`;
* the unbounded `for` loop of `split255` takes a fuel argument, one unit per
  iteration; running dry is the distinct outcome `Outcome.timeout`;
* a slice expression out of range is the distinct outcome `Outcome.panic`.
* of the output of `fmt.Printf` only the `Adding:` line of `addHandler` is kept;
  the response writer of a handler is the list of messages written to it.
-/

namespace Fdns

/-- A Go `string`: an immutable sequence of bytes. -/
abbrev GoString := List UInt8

/-- The bytes of a string literal (used for ASCII literals only). -/
def str (s : String) : GoString := s.toList.map (fun c => UInt8.ofNat c.toNat)

/-- Result of running a piece of Go code that may panic or loop. -/
inductive Outcome (α : Type) where
  | done (a : α)
  | panic
  | timeout
  deriving DecidableEq, Repr

/-- The slice expression `s[p:i]`: panics unless `p ≤ i ≤ len(s)`. -/
def slice (s : GoString) (p i : Nat) : Outcome GoString :=
  if p ≤ i ∧ i ≤ s.length then .done ((s.drop p).take (i - p)) else .panic

/-- The slice expression `s[p:]`: panics unless `p ≤ len(s)`. -/
def sliceFrom (s : GoString) (p : Nat) : Outcome GoString :=
  if p ≤ s.length then .done (s.drop p) else .panic

/-- The `for` loop of `split255` with loop variables `sx`, `p`, `i`;
one unit of fuel per iteration. -/
def split255Loop (s : GoString) : Nat → List GoString → Nat → Nat → Outcome (List GoString)
  | 0, _, _, _ => .timeout
  | fuel + 1, sx, p, i =>
    if i ≤ s.length then
      match slice s p i with
      | .done c => split255Loop s fuel (sx ++ [c]) (p + 255) (i + 255)
      | .panic => .panic
      | .timeout => .timeout
    else
      match sliceFrom s p with
      | .done c => .done (sx ++ [c])
      | .panic => .panic
      | .timeout => .timeout

/-- The function `split255`: splits a string into 255 byte chunks. -/
def split255 (fuel : Nat) (s : GoString) : Outcome (List GoString) :=
  if s.length < 255 then .done [s]
  else split255Loop s fuel [] 0 255

/-- Number of loop iterations `split255` needs on a string of length `n`. -/
def split255Fuel (n : Nat) : Nat := n / 255 + 1

/-! ## Configuration types (`Conf`, `Domain`, `A`, `MX`) -/

/-- The type `net.IP`: a byte slice, `nil` (no bytes) when absent. -/
abbrev IP := List UInt8

/-- The struct `A`: configured address and time-to-live (`time.Duration`, an `int64`). -/
structure A where
  Ip : IP
  Ttl : Int
  deriving DecidableEq, Repr

/-- The struct `MX`: configured mail exchange. -/
structure MX where
  Content : GoString
  Priority : Nat
  Ttl : Int
  deriving DecidableEq, Repr

/-- The struct `Domain`: one configured zone node with its sub-domains. -/
inductive Domain where
  | mk (Name : GoString) (A : A) (Mx : MX) (Domains : List Domain)
  deriving Repr

/-- Field `Name`. -/
def Domain.Name : Domain → GoString
  | .mk n _ _ _ => n

/-- Field `A`. -/
def Domain.A : Domain → A
  | .mk _ a _ _ => a

/-- Field `Mx`. -/
def Domain.Mx : Domain → MX
  | .mk _ _ m _ => m

/-- Field `Domains`. -/
def Domain.Domains : Domain → List Domain
  | .mk _ _ _ ds => ds

/-- The struct `Conf` (durations are `int64`). -/
structure Conf where
  Domains : List Domain
  Listen : GoString
  TTL : Int
  Purge : Int

/-! ## The parts of `github.com/miekg/dns` the program touches -/

/-- The conversion `uint32(x)` of a signed 64-bit value. -/
def uint32 (x : Int) : Nat := (x % 2 ^ 32).toNat

/-- The constant `dns.TypeA`. -/
def TypeA : Nat := 1

/-- The constant `dns.TypeMX`. -/
def TypeMX : Nat := 15

/-- The constant `dns.TypeTXT`. -/
def TypeTXT : Nat := 16

/-- The constant `dns.ClassINET`. -/
def ClassINET : Nat := 1

/-- The struct `dns.RR_Header` (the fields the builders set). -/
structure RR_Header where
  Name : GoString
  Rrtype : Nat
  Class : Nat
  Ttl : Nat
  deriving DecidableEq, Repr

/-- The resource records the program builds: `dns.A`, `dns.MX`, `dns.TXT`. -/
inductive RR where
  | A (Hdr : RR_Header) (A : IP)
  | MX (Hdr : RR_Header) (Preference : Nat) (Mx : GoString)
  | TXT (Hdr : RR_Header) (Txt : List GoString)
  deriving DecidableEq, Repr

/-- Header of a record. -/
def RR.Hdr : RR → RR_Header
  | .A h _ => h
  | .MX h _ _ => h
  | .TXT h _ => h

/-- The struct `dns.Question`. -/
structure Question where
  Name : GoString
  Qtype : Nat
  Qclass : Nat
  deriving DecidableEq, Repr

/-- The struct `dns.Msg`, restricted to the fields read or written here. -/
structure Msg where
  Id : Nat
  Response : Bool
  RecursionDesired : Bool
  Rcode : Nat
  Compress : Bool
  Question : List Question
  Answer : List RR
  deriving DecidableEq, Repr

/-- The zero message `new(dns.Msg)`. -/
def Msg.new : Msg := ⟨0, false, false, 0, false, [], []⟩

/-- Library method `(*dns.Msg).SetReply`: copies id, rd bit and the first
question of the request, marks the message a successful response.
It leaves `Answer` alone. -/
def SetReply (m req : Msg) : Msg :=
  { m with Id := req.Id, RecursionDesired := req.RecursionDesired, Response := true,
           Rcode := 0, Question := req.Question.take 1 }

/-- Modelled from the spec: `dns.IsFqdn` belongs to the library and is not
under `src/`; a name is fully qualified when it is terminated by the root
separator `.` (byte 46). -/
def IsFqdn (s : GoString) : Bool :=
  match s.getLast? with
  | some c => c == 46
  | none => false

/-- Library function `dns.Fqdn`: appends the root separator unless present. -/
def Fqdn (s : GoString) : GoString :=
  if IsFqdn s then s else s ++ str "."

/-! ## Record builders -/

/-- The function `NewMX`: note the parameter order `host`, `name`. -/
def NewMX (host name : GoString) (priority ttl : Nat) : RR :=
  .MX { Name := name, Rrtype := TypeMX, Class := ClassINET, Ttl := ttl } priority host

/-- The function `NewA`. -/
def NewA (name : GoString) (ip : IP) (ttl : Nat) : RR :=
  .A { Name := name, Rrtype := TypeA, Class := ClassINET, Ttl := ttl } ip

/-- The function `NewTXT`: the payload is `split255(text)`. -/
def NewTXT (fuel : Nat) (name text : GoString) (ttl : Nat) : Outcome RR :=
  match split255 fuel text with
  | .done sx => .done (.TXT { Name := name, Rrtype := TypeTXT, Class := ClassINET, Ttl := ttl } sx)
  | .panic => .panic
  | .timeout => .timeout

/-! ## The query handler installed by `addHandler` -/

/-- Body of the question loop: the `switch q.Qtype` on the message `m`. -/
def handleQuestion (dom : Domain) (m : Msg) (q : Question) : Msg :=
  if q.Qtype = 1 then
    { m with Answer := m.Answer ++ [NewA q.Name dom.A.Ip (uint32 dom.A.Ttl)] }
  else if q.Qtype = 15 then
    { m with Answer := m.Answer ++
        [NewMX q.Name dom.Mx.Content dom.Mx.Priority (uint32 dom.Mx.Ttl)] }
  else m

/-- The closure passed to `dns.HandleFunc` for the node `dom`.  The response
writer `w` is the list of messages written so far; `w.WriteMsg(m)` appends. -/
def handler (dom : Domain) (w : List Msg) (req : Msg) : List Msg :=
  let m := SetReply Msg.new req
  let m := { m with Compress := true }
  let m := req.Question.foldl (handleQuestion dom) m
  w ++ [m]

/-! ## Registration: `Domain.addHandler` and the loop of `main` -/

/-- Go map `m[k] = v` on an association list with unique keys. -/
def mapSet (m : List (GoString × Domain)) (k : GoString) (v : Domain) :
    List (GoString × Domain) :=
  (k, v) :: m.filter (fun e => e.1 != k)

/-- Go map read `m[k]`. -/
def mapGet (m : List (GoString × Domain)) (k : GoString) : Option Domain :=
  m.lookup k

/-- What registration changes: the `Adding:` lines printed (candidate fqdn
and the label count of `dns.IsDomainName`), and the table of the default
serve mux, which maps a name to the node whose handler closure is bound. -/
structure World where
  stdout : List (GoString × Nat)
  mux : List (GoString × Domain)

/-- Library function `dns.HandleFunc`: `mux.z[Fqdn(pattern)] = handler`.
Its panic on the empty pattern is unreachable behind the `IsFqdn` guard. -/
def HandleFunc (pattern : GoString) (dom : Domain) (st : World) : World :=
  { st with mux := mapSet st.mux (Fqdn pattern) dom }

mutual
/-- The method `Domain.addHandler`.  The library function `dns.IsDomainName`
is the parameter `isDomainName` (label count, validity). -/
def addHandler (isDomainName : GoString → Nat × Bool) (dom : Domain) (tld : GoString)
    (st : World) : World :=
  match dom with
  | .mk name a mx ds =>
    let fqdn := if tld ≠ [] then name ++ str "." ++ tld else name
    let FqdnParts := (isDomainName fqdn).1
    let st := { st with stdout := st.stdout ++ [(fqdn, FqdnParts)] }
    let st := if IsFqdn fqdn then HandleFunc fqdn (.mk name a mx ds) st else st
    addHandlers isDomainName ds fqdn st
/-- The loop `for _, d := range ds { d.addHandler(tld) }`. -/
def addHandlers (isDomainName : GoString → Nat × Bool) (ds : List Domain) (tld : GoString)
    (st : World) : World :=
  match ds with
  | [] => st
  | d :: rest => addHandlers isDomainName rest tld (addHandler isDomainName d tld st)
end

/-- The registration loop of `main`: every top-level domain with `tld = ""`,
starting from nothing printed and an empty mux. -/
def mainAddHandlers (isDomainName : GoString → Nat × Bool) (conf : Conf) : World :=
  addHandlers isDomainName conf.Domains [] ⟨[], []⟩

/-! ## Specification-side definitions -/

/-- The value `ceil(n/255)`. -/
def ceil255 (n : Nat) : Nat := (n + 254) / 255

/-- A chain of labels, own label first and root label last, joined by the
domain separator: `l_k + "." + ... + "." + l_0`. -/
def joinLabels : List GoString → GoString
  | [] => []
  | [l] => l
  | l :: rest => l ++ str "." ++ joinLabels rest

mutual
/-- Label chains (own label first, root last) of the nodes of a tree in
pre-order, below the ancestor chain `anc`. -/
def chains (d : Domain) (anc : List GoString) : List (List GoString) :=
  match d with
  | .mk name _ _ ds => (name :: anc) :: chainsList ds (name :: anc)
/-- Label chains of the nodes of a forest in pre-order. -/
def chainsList (ds : List Domain) (anc : List GoString) : List (List GoString) :=
  match ds with
  | [] => []
  | d :: rest => chains d anc ++ chainsList rest anc
end

/-- Answers one question contributes, by the `switch` of the handler: one
address record for query type 1, one mail-exchange record for query type 15,
nothing otherwise. -/
def questionAnswers (dom : Domain) (q : Question) : List RR :=
  if q.Qtype = 1 then [NewA q.Name dom.A.Ip (uint32 dom.A.Ttl)]
  else if q.Qtype = 15 then [NewMX q.Name dom.Mx.Content dom.Mx.Priority (uint32 dom.Mx.Ttl)]
  else []

/-- The record type code of a resource record. -/
def RR.Rrtype (r : RR) : Nat := r.Hdr.Rrtype

/-- A node with no address configured (`A.Ip` is nil). -/
def noAddressDomain : Domain :=
  .mk (str "example.") ⟨[], 300⟩ ⟨str "mail.example.", 10, 300⟩ []

/-- A request with the single question `(qname, qtype)`. -/
def query (qname : GoString) (qtype : Nat) : Msg :=
  { Msg.new with Id := 7, Question := [⟨qname, qtype, ClassINET⟩] }

mutual
/-- Every label of the tree is a non-empty string. -/
def Domain.labelsNonEmpty : Domain → Bool
  | .mk name _ _ ds => !name.isEmpty && labelsNonEmptyList ds
/-- Every label of the forest is a non-empty string. -/
def labelsNonEmptyList : List Domain → Bool
  | [] => true
  | d :: rest => d.labelsNonEmpty && labelsNonEmptyList rest
end

/-- The example configuration of the spec, as written there. -/
def exampleConf : Conf :=
  { Domains := [.mk (str "example") ⟨[1, 2, 3, 4], 300⟩ ⟨[], 0, 0⟩
      [.mk (str "www") ⟨[5, 6, 7, 8], 60⟩ ⟨[], 0, 0⟩ []]],
    Listen := [], TTL := 0, Purge := 0 }

/-- The example configuration with the top-level label rooted. -/
def exampleConfRooted : Conf :=
  { Domains := [.mk (str "example.") ⟨[1, 2, 3, 4], 300⟩ ⟨[], 0, 0⟩
      [.mk (str "www") ⟨[5, 6, 7, 8], 60⟩ ⟨[], 0, 0⟩ []]],
    Listen := [], TTL := 0, Purge := 0 }

/-! ## The server value built by `serve` and the flag handling of `main` -/

/-- The struct `dns.Server`, restricted to the fields `serve` sets; the Go map
`TsigSecret` is the list of its entries. -/
structure Server where
  Addr : GoString
  Net : GoString
  TsigSecret : List (GoString × GoString)
  deriving DecidableEq, Repr

/-- The function `serve`: the server value built on line 116, on which
`ListenAndServe` is then called. -/
def serve (net name secret : GoString) : Server :=
  { Addr := str ":53", Net := net, TsigSecret := [(name, secret)] }

/-- Library call `strings.SplitN(s, sep, 2)` for a one-byte separator: the
part before the first separator and the rest, or `s` alone without one. -/
def splitN2 (sep : UInt8) : GoString → List GoString
  | [] => [[]]
  | c :: rest =>
    if c = sep then [[], rest]
    else
      match splitN2 sep rest with
      | a :: tl => (c :: a) :: tl
      | [] => [[c]]

/-- Lines 165 to 175 of `main`: `name` and `secret` from the value of the
flag `--tsig` (empty when the flag is absent); `a[1]` panics without a colon. -/
def mainTsig (tsig : GoString) : Outcome (GoString × GoString) :=
  if tsig ≠ [] then
    match splitN2 58 tsig with
    | [a0, a1] => .done (Fqdn a0, a1)
    | _ => .panic
  else .done ([], [])

/-- Lines 193 and 194 of `main`: the two server values, `tcp` then `udp`. -/
def mainServers (tsig : GoString) : Outcome (List Server) :=
  match mainTsig tsig with
  | .done (name, secret) => .done [serve (str "tcp") name secret, serve (str "udp") name secret]
  | .panic => .panic
  | .timeout => .timeout

/-! ## Specification-side definitions for registration -/

/-- The candidate name of a node, in the words of the spec: `node.name` if
`parentFqdn` is empty, else `node.name + "." + parentFqdn`. -/
def candidate (name parentFqdn : GoString) : GoString :=
  if parentFqdn ≠ [] then name ++ str "." ++ parentFqdn else name

mutual
/-- The nodes of a tree in pre-order (a node before its children, children
in configuration order), each with its candidate name. -/
def visits (d : Domain) (tld : GoString) : List (GoString × Domain) :=
  match d with
  | .mk name a mx ds =>
    (candidate name tld, .mk name a mx ds) :: visitsList ds (candidate name tld)
/-- The nodes of a forest in pre-order, each with its candidate name. -/
def visitsList (ds : List Domain) (tld : GoString) : List (GoString × Domain) :=
  match ds with
  | [] => []
  | d :: rest => visits d tld ++ visitsList rest tld
end

/-- What one call of `addHandler` does for its own node `e.2` with candidate
name `e.1`, apart from descending: print the `Adding:` line and install the
handler behind the `IsFqdn` guard. -/
def registerStep (isDomainName : GoString → Nat × Bool) (st : World)
    (e : GoString × Domain) : World :=
  let st := { st with stdout := st.stdout ++ [(e.1, (isDomainName e.1).1)] }
  if IsFqdn e.1 then HandleFunc e.1 e.2 st else st

/-- The node visited last among the visits whose candidate name is `k` and
fully qualified. -/
def lastBound (k : GoString) (vs : List (GoString × Domain)) : Option Domain :=
  (vs.reverse.find? (fun e => IsFqdn e.1 && e.1 == k)).map Prod.snd

/-- A tree of depth `D` with uniform branching factor `B`: every node at depth
below `D` has exactly `B` children, every node at depth `D` has none. -/
def uniformTree (B : Nat) : Nat → Domain → Bool
  | 0, d => d.Domains.isEmpty
  | D + 1, d => d.Domains.length == B && d.Domains.all (uniformTree B D)

/-- Number of nodes of a uniform tree: `1 + B + ... + B^D`. -/
def uniformNodes (B : Nat) : Nat → Nat
  | 0 => 1
  | D + 1 => 1 + B * uniformNodes B D

/-- A leaf with the given label and no records. -/
def leaf (name : GoString) : Domain := .mk name ⟨[], 0⟩ ⟨[], 0, 0⟩ []

/-- A configuration whose only node has the label `a..b.`: rooted, with an
empty label inside. -/
def emptyLabelConf : Conf :=
  { Domains := [leaf (str "a..b.")], Listen := [], TTL := 0, Purge := 0 }

/-- A configuration in which the label `a.` occurs twice at the top level,
first with address TTL 1 and then with address TTL 2. -/
def duplicateConf : Conf :=
  { Domains := [.mk (str "a.") ⟨[1, 1, 1, 1], 1⟩ ⟨[], 0, 0⟩ [],
                .mk (str "a.") ⟨[2, 2, 2, 2], 2⟩ ⟨[], 0, 0⟩ []],
    Listen := [], TTL := 0, Purge := 0 }

/-- A tree of depth 1 with two children per inner node. -/
def binaryTree : Domain :=
  .mk (str "z.") ⟨[], 0⟩ ⟨[], 0, 0⟩ [leaf (str "x"), leaf (str "")]

/-- A node whose address TTL is negative and whose mail-exchange TTL exceeds
32 bits. -/
def wideTtlDomain : Domain :=
  .mk (str "t.") ⟨[9, 9, 9, 9], -1⟩ ⟨str "mx.t.", 5, 2 ^ 32 + 7⟩ []

/-! ## `split255` -/

theorem slice_done (s : GoString) (p : Nat) (h : p + 255 ≤ s.length) :
    slice s p (p + 255) = .done ((s.drop p).take 255) := by
  unfold slice
  rw [if_pos ⟨Nat.le_add_right p 255, h⟩, Nat.add_sub_cancel_left]

theorem sliceFrom_done (s : GoString) (p : Nat) (h : p ≤ s.length) :
    sliceFrom s p = .done (s.drop p) := by
  unfold sliceFrom
  rw [if_pos h]

/-- Loop invariant of `split255`: entered with `i = p + 255`, `p ≤ len(s)` and
enough fuel, the loop finishes and appends to `sx` chunks of at most 255
bytes that concatenate to `s[p:]`; there are `(len(s) - p) / 255 + 1` of them. -/
theorem split255Loop_spec (s : GoString) :
    ∀ (fuel : Nat) (sx : List GoString) (p : Nat),
      p ≤ s.length → (s.length - p) / 255 + 1 ≤ fuel →
      ∃ rest, split255Loop s fuel sx p (p + 255) = .done (sx ++ rest) ∧
        rest.flatten = s.drop p ∧ (∀ c ∈ rest, c.length ≤ 255) ∧
        rest.length = (s.length - p) / 255 + 1 := by
  intro fuel
  induction fuel with
  | zero => intro sx p _ hf; omega
  | succ fuel ih =>
    intro sx p hp hf
    by_cases hi : p + 255 ≤ s.length
    · have hp2 : p + 255 ≤ s.length := hi
      have hf2 : (s.length - (p + 255)) / 255 + 1 ≤ fuel := by omega
      obtain ⟨rest, hrun, hjoin, hlen, hcnt⟩ := ih (sx ++ [(s.drop p).take 255]) (p + 255) hp2 hf2
      refine ⟨(s.drop p).take 255 :: rest, ?_, ?_, ?_, ?_⟩
      · rw [split255Loop, if_pos hi, slice_done s p hi]
        simp only [hrun, List.append_assoc, List.singleton_append]
      · rw [List.flatten_cons, hjoin, ← List.drop_drop, List.take_append_drop]
      · intro c hc
        rcases List.mem_cons.mp hc with h | h
        · rw [h, List.length_take]; exact Nat.min_le_left _ _
        · exact hlen c h
      · rw [List.length_cons, hcnt]; omega
    · refine ⟨[s.drop p], ?_, ?_, ?_, ?_⟩
      · rw [split255Loop, if_neg hi, sliceFrom_done s p hp]
      · simp
      · intro c hc
        rw [List.mem_singleton.mp hc, List.length_drop]; omega
      · rw [List.length_singleton]; omega

/-- Summary of `split255`: with `len(s) / 255 + 1` units of fuel or more it
returns chunks of at most 255 bytes that concatenate to `s`, and there are
`len(s) / 255 + 1` of them. -/
theorem split255_spec (s : GoString) (fuel : Nat) (hf : split255Fuel s.length ≤ fuel) :
    ∃ sx, split255 fuel s = .done sx ∧ sx.flatten = s ∧ (∀ c ∈ sx, c.length ≤ 255) ∧
      sx.length = s.length / 255 + 1 := by
  by_cases h : s.length < 255
  · refine ⟨[s], ?_, ?_, ?_, ?_⟩
    · rw [split255, if_pos h]
    · simp
    · intro c hc
      rw [List.mem_singleton.mp hc]; omega
    · rw [List.length_singleton]; omega
  · obtain ⟨rest, hrun, hjoin, hlen, hcnt⟩ :=
      split255Loop_spec s fuel [] 0 (Nat.zero_le _) (by unfold split255Fuel at hf; omega)
    refine ⟨rest, ?_, ?_, hlen, ?_⟩
    · rw [split255, if_neg h]; simpa using hrun
    · simpa using hjoin
    · simpa using hcnt

/-- C1: with enough fuel for its loop, `split255(s)` returns chunks whose
concatenation in order is exactly `s`, and `NewTXT(name, s, ttl)` carries
exactly these chunks as its `Txt` payload. -/
theorem split255_concat (s name : GoString) (ttl fuel : Nat)
    (hf : split255Fuel s.length ≤ fuel) :
    ∃ sx, split255 fuel s = .done sx ∧ sx.flatten = s ∧
      NewTXT fuel name s ttl = .done (.TXT ⟨name, TypeTXT, ClassINET, ttl⟩ sx) := by
  obtain ⟨sx, hrun, hjoin, _, _⟩ := split255_spec s fuel hf
  exact ⟨sx, hrun, hjoin, by rw [NewTXT, hrun]⟩

theorem split255_concat_witness :
    split255Fuel (List.replicate 300 (97 : UInt8)).length ≤ 2 ∧
    ∃ sx, split255 2 (List.replicate 300 (97 : UInt8)) = .done sx ∧
      sx.flatten = List.replicate 300 (97 : UInt8) ∧
      NewTXT 2 (str "t.") (List.replicate 300 (97 : UInt8)) 60
        = .done (.TXT ⟨str "t.", TypeTXT, ClassINET, 60⟩ sx) :=
  ⟨by rw [List.length_replicate]; decide, split255_concat _ _ _ _ (by rw [List.length_replicate]; decide)⟩

/-- C2: with enough fuel for its loop, `split255(s)` returns chunks that each
have at most 255 bytes. -/
theorem split255_chunk_le (s : GoString) (fuel : Nat) (hf : split255Fuel s.length ≤ fuel) :
    ∃ sx, split255 fuel s = .done sx ∧ ∀ c ∈ sx, c.length ≤ 255 := by
  obtain ⟨sx, hrun, _, hlen, _⟩ := split255_spec s fuel hf
  exact ⟨sx, hrun, hlen⟩

theorem split255_chunk_le_witness :
    split255Fuel (List.replicate 600 (98 : UInt8)).length ≤ 3 ∧
    ∃ sx, split255 3 (List.replicate 600 (98 : UInt8)) = .done sx ∧ ∀ c ∈ sx, c.length ≤ 255 :=
  ⟨by rw [List.length_replicate]; decide, split255_chunk_le _ _ (by rw [List.length_replicate]; decide)⟩

/-- C3, refuted as stated: the empty string gives one chunk where
`ceil(0/255) = 0`, and a string of 255 bytes gives two chunks where
`ceil(255/255) = 1`. -/
theorem split255_count_ne_ceil :
    (split255 1 [] = .done [[]] ∧ ([[]] : List GoString).length ≠ ceil255 ([] : GoString).length) ∧
    (∃ sx, split255 2 (List.replicate 255 (97 : UInt8)) = .done sx ∧ sx.length = 2 ∧
      ceil255 (List.replicate 255 (97 : UInt8)).length = 1) := by
  refine ⟨⟨by decide, by decide⟩, ?_⟩
  obtain ⟨sx, hrun, _, _, hcnt⟩ :=
    split255_spec (List.replicate 255 (97 : UInt8)) 2 (by rw [List.length_replicate]; decide)
  exact ⟨sx, hrun, by rw [hcnt, List.length_replicate], by rw [List.length_replicate]; decide⟩

/-- C3, amended: for a string whose length `L` is not a positive multiple of
255, `split255` returns `max 1 (ceil(L/255))` chunks, that is `ceil(L/255)`
chunks when `L` is not a multiple of 255 and one chunk for the empty string. -/
theorem split255_count (s : GoString) (fuel : Nat) (hf : split255Fuel s.length ≤ fuel)
    (hL : s.length % 255 ≠ 0 ∨ s.length = 0) :
    ∃ sx, split255 fuel s = .done sx ∧ sx.length = max 1 (ceil255 s.length) := by
  obtain ⟨sx, hrun, _, _, hcnt⟩ := split255_spec s fuel hf
  refine ⟨sx, hrun, ?_⟩
  rw [hcnt]
  unfold ceil255
  rcases hL with h | h
  · have h1 : (s.length + 254) / 255 = s.length / 255 + 1 := by omega
    rw [h1]; omega
  · rw [h]; decide

theorem split255_count_witness :
    split255Fuel (List.replicate 256 (97 : UInt8)).length ≤ 2 ∧
    ((List.replicate 256 (97 : UInt8)).length % 255 ≠ 0 ∨
      (List.replicate 256 (97 : UInt8)).length = 0) ∧
    ∃ sx, split255 2 (List.replicate 256 (97 : UInt8)) = .done sx ∧
      sx.length = max 1 (ceil255 (List.replicate 256 (97 : UInt8)).length) :=
  ⟨by rw [List.length_replicate]; decide, by rw [List.length_replicate]; decide,
    split255_count _ _ (by rw [List.length_replicate]; decide)
      (by rw [List.length_replicate]; decide)⟩

/-! ## Registration of the example configuration -/

/-- C4, refuted as stated: whatever `dns.IsDomainName` returns, registering
the configuration with the top-level label `example` installs no binding at
all, since neither `example` nor `www.example` ends with the root separator. -/
theorem exampleConf_no_binding :
    ¬ ∃ isDomainName, (mainAddHandlers isDomainName exampleConf).mux ≠ [] := by
  rintro ⟨isDomainName, h⟩
  exact h rfl

/-- C4, amended: with the top-level label written rooted, `example.`,
registering the configuration installs exactly the bindings `example.` and
`www.example.`, the latter bound to the node carrying IP 5.6.7.8 and TTL 60. -/
theorem exampleConfRooted_bindings (isDomainName : GoString → Nat × Bool) :
    (mainAddHandlers isDomainName exampleConfRooted).mux.map Prod.fst
        = [str "www.example.", str "example."] ∧
      (mapGet (mainAddHandlers isDomainName exampleConfRooted).mux (str "example.")).map
        Domain.Name = some (str "example.") ∧
      mapGet (mainAddHandlers isDomainName exampleConfRooted).mux (str "www.example.")
        = some (.mk (str "www") ⟨[5, 6, 7, 8], 60⟩ ⟨[], 0, 0⟩ []) :=
  ⟨rfl, rfl, rfl⟩

/-! ## The query handler -/

theorem foldl_handleQuestion (dom : Domain) (qs : List Question) :
    ∀ m : Msg, qs.foldl (handleQuestion dom) m
      = { m with Answer := m.Answer ++ (qs.map (questionAnswers dom)).flatten } := by
  induction qs with
  | nil => intro m; simp
  | cons q qs ih =>
    intro m
    rw [List.foldl_cons, ih]
    unfold handleQuestion questionAnswers
    by_cases h1 : q.Qtype = 1
    · simp [h1]
    · by_cases h15 : q.Qtype = 15
      · simp [h15]
      · simp [h1, h15]

/-- The handler writes exactly one message: the reply skeleton with the
answers of all questions, in question order. -/
theorem handler_eq (dom : Domain) (w : List Msg) (req : Msg) :
    handler dom w req =
      w ++ [{ Id := req.Id, Response := true, RecursionDesired := req.RecursionDesired,
              Rcode := 0, Compress := true, Question := req.Question.take 1,
              Answer := (req.Question.map (questionAnswers dom)).flatten }] := by
  unfold handler
  simp only [foldl_handleQuestion, SetReply, Msg.new, List.nil_append]

theorem uint32_of_range (t : Int) (h0 : 0 ≤ t) (h1 : t < 2 ^ 32) : (uint32 t : Int) = t := by
  unfold uint32
  rw [Int.emod_eq_of_lt h0 h1, Int.toNat_of_nonneg h0]

/-- C5: for a node whose address TTL lies in `0..2^32-1` and a request with a
single question of type 1 and any name `qname`, the handler writes one
response whose only answer is an address record with header name `qname`,
the node's configured IP and the node's configured TTL. -/
theorem handler_address (dom : Domain) (w : List Msg) (req : Msg) (q : Question)
    (hq : req.Question = [q]) (ht : q.Qtype = 1)
    (h0 : 0 ≤ dom.A.Ttl) (h1 : dom.A.Ttl < 2 ^ 32) :
    ∃ (m : Msg) (ttl : Nat), handler dom w req = w ++ [m] ∧ (ttl : Int) = dom.A.Ttl ∧
      m.Answer = [RR.A ⟨q.Name, TypeA, ClassINET, ttl⟩ dom.A.Ip] := by
  refine ⟨_, uint32 dom.A.Ttl, handler_eq dom w req, uint32_of_range _ h0 h1, ?_⟩
  simp [hq, questionAnswers, ht, NewA]

theorem handler_address_witness :
    (query (str "other.") 1).Question = [⟨str "other.", 1, ClassINET⟩] ∧
    (0 : Int) ≤ (Domain.mk (str "www") ⟨[5, 6, 7, 8], 60⟩ ⟨[], 0, 0⟩ []).A.Ttl ∧
    ∃ (m : Msg) (ttl : Nat), handler (.mk (str "www") ⟨[5, 6, 7, 8], 60⟩ ⟨[], 0, 0⟩ []) []
        (query (str "other.") 1) = [] ++ [m] ∧
      (ttl : Int) = 60 ∧
      m.Answer = [RR.A ⟨str "other.", TypeA, ClassINET, ttl⟩ [5, 6, 7, 8]] :=
  ⟨rfl, by decide,
    handler_address (.mk (str "www") ⟨[5, 6, 7, 8], 60⟩ ⟨[], 0, 0⟩ []) []
      (query (str "other.") 1) ⟨str "other.", 1, ClassINET⟩ rfl rfl (by decide) (by decide)⟩

/-- C6, refuted as stated: for a node with no address configured, a request
with one question of type 1 is answered with one answer record, not zero. -/
theorem handler_no_address_one_answer :
    handler noAddressDomain [] (query (str "example.") 1)
      = [{ Id := 7, Response := true, RecursionDesired := false, Rcode := 0, Compress := true,
           Question := [⟨str "example.", 1, ClassINET⟩],
           Answer := [RR.A ⟨str "example.", TypeA, ClassINET, 300⟩ []] }] ∧
    ((handler noAddressDomain [] (query (str "example.") 1)).map
      (fun m => m.Answer.length)) ≠ [0] := by
  constructor
  · decide
  · decide

/-- C6, amended: for a node with no address configured (`A.Ip` nil) and a
request with a single question of type 1, the handler writes one response
with exactly one answer: an address record with header name `qname`, TTL
`uint32(A.Ttl)` and no IP bytes. -/
theorem handler_no_address (dom : Domain) (w : List Msg) (req : Msg) (q : Question)
    (hq : req.Question = [q]) (ht : q.Qtype = 1) (hip : dom.A.Ip = []) :
    ∃ m, handler dom w req = w ++ [m] ∧
      m.Answer = [RR.A ⟨q.Name, TypeA, ClassINET, uint32 dom.A.Ttl⟩ []] := by
  refine ⟨_, handler_eq dom w req, ?_⟩
  simp [hq, questionAnswers, ht, NewA, hip]

theorem handler_no_address_witness :
    (query (str "example.") 1).Question = [⟨str "example.", 1, ClassINET⟩] ∧
    noAddressDomain.A.Ip = [] ∧
    ∃ m, handler noAddressDomain [] (query (str "example.") 1) = [] ++ [m] ∧
      m.Answer = [RR.A ⟨str "example.", TypeA, ClassINET, uint32 noAddressDomain.A.Ttl⟩ []] :=
  ⟨rfl, rfl, handler_no_address noAddressDomain [] (query (str "example.") 1)
    ⟨str "example.", 1, ClassINET⟩ rfl rfl rfl⟩

/-- C7, the code at the failing input: the node has mail exchange
`mail.example.` (priority 10, TTL 300) and the question is `example.` of
type 15.  The record emitted has owner name `mail.example.` and target
`example.`: `NewMX` takes `(host, name, ...)` and is called with
`(q.Name, dom.Mx.Content, ...)`.  It is not the record
`NewMX(target = content, name = qname, priority, ttl)` the claim describes. -/
theorem handler_mx_swapped :
    handler noAddressDomain [] (query (str "example.") 15)
      = [{ Id := 7, Response := true, RecursionDesired := false, Rcode := 0, Compress := true,
           Question := [⟨str "example.", 15, ClassINET⟩],
           Answer := [RR.MX ⟨str "mail.example.", TypeMX, ClassINET, 300⟩ 10 (str "example.")] }] ∧
    RR.MX ⟨str "mail.example.", TypeMX, ClassINET, 300⟩ 10 (str "example.")
      ≠ NewMX (str "mail.example.") (str "example.") 10 300 := by
  constructor
  · decide
  · decide

/-- C8: when no question of the request has type 1 or 15, the handler still
writes exactly one message, a response, and it carries no answer record. -/
theorem handler_unsupported (dom : Domain) (w : List Msg) (req : Msg)
    (h : ∀ q ∈ req.Question, q.Qtype ≠ 1 ∧ q.Qtype ≠ 15) :
    ∃ m, handler dom w req = w ++ [m] ∧ m.Response = true ∧ m.Answer = [] := by
  refine ⟨_, handler_eq dom w req, rfl, ?_⟩
  simp only [List.flatten_eq_nil_iff, List.mem_map]
  rintro l ⟨q, hq, rfl⟩
  simp [questionAnswers, (h q hq).1, (h q hq).2]

theorem handler_unsupported_witness :
    (∀ q ∈ ({ Msg.new with Question := [⟨str "example.", 16, 1⟩, ⟨str "example.", 28, 1⟩] } :
        Msg).Question, q.Qtype ≠ 1 ∧ q.Qtype ≠ 15) ∧
    ∃ m, handler noAddressDomain []
        { Msg.new with Question := [⟨str "example.", 16, 1⟩, ⟨str "example.", 28, 1⟩] }
        = [] ++ [m] ∧ m.Response = true ∧ m.Answer = [] :=
  ⟨by decide, handler_unsupported noAddressDomain [] _ (by decide)⟩

/-- C9: the answer list of the one response the handler writes is the
concatenation, in question order, of the answers of each question (one
record of type 1 for a question of type 1, one record of type 15 for a
question of type 15, none otherwise); so there are as many answers as
questions of type 1 or 15. -/
theorem handler_answers_in_order (dom : Domain) (w : List Msg) (req : Msg) :
    ∃ m, handler dom w req = w ++ [m] ∧
      m.Answer = (req.Question.map (questionAnswers dom)).flatten ∧
      m.Answer.length = req.Question.countP (fun q => q.Qtype = 1 ∨ q.Qtype = 15) ∧
      m.Answer.map RR.Rrtype
        = (req.Question.filter (fun q => q.Qtype = 1 ∨ q.Qtype = 15)).map Question.Qtype := by
  refine ⟨_, handler_eq dom w req, rfl, ?_, ?_⟩
  · show ((req.Question.map (questionAnswers dom)).flatten).length = _
    induction req.Question with
    | nil => rfl
    | cons q qs ih =>
      rw [List.map_cons, List.flatten_cons, List.length_append, ih, List.countP_cons]
      unfold questionAnswers
      by_cases h1 : q.Qtype = 1
      · simp [h1]; omega
      · by_cases h15 : q.Qtype = 15
        · simp [h15]; omega
        · simp [h1, h15]
  · show ((req.Question.map (questionAnswers dom)).flatten).map RR.Rrtype = _
    induction req.Question with
    | nil => rfl
    | cons q qs ih =>
      rw [List.map_cons, List.flatten_cons, List.map_append, ih]
      unfold questionAnswers
      by_cases h1 : q.Qtype = 1
      · simp [h1, List.filter_cons, NewA, RR.Rrtype, RR.Hdr, TypeA]
      · by_cases h15 : q.Qtype = 15
        · simp [h15, List.filter_cons, NewMX, RR.Rrtype, RR.Hdr, TypeMX]
        · simp [h1, h15, List.filter_cons]

/-! ## Candidate names computed by `addHandler` -/

theorem joinLabels_cons (l : GoString) (anc : List GoString) (h : anc ≠ []) :
    joinLabels (l :: anc) = l ++ str "." ++ joinLabels anc := by
  cases anc with
  | nil => exact absurd rfl h
  | cons a rest => rfl

theorem joinLabels_ne_nil (anc : List GoString) (hne : anc ≠ [])
    (h : ∀ l ∈ anc, l ≠ []) : joinLabels anc ≠ [] := by
  cases anc with
  | nil => exact absurd rfl hne
  | cons a rest =>
    have ha : a ≠ [] := h a (List.mem_cons_self a rest)
    cases rest with
    | nil => exact ha
    | cons b rest2 =>
      rw [joinLabels_cons a (b :: rest2) (List.cons_ne_nil b rest2)]
      intro hnil
      exact ha (List.append_eq_nil.mp (List.append_eq_nil.mp hnil).1).1

/-- The candidate name `addHandler` computes (lines 124 to 127) when `tld` is
the joined chain of the ancestors' non-empty labels. -/
theorem fqdn_eq_joinLabels (name : GoString) (anc : List GoString)
    (h : ∀ l ∈ anc, l ≠ []) :
    (if joinLabels anc ≠ [] then name ++ str "." ++ joinLabels anc else name)
      = joinLabels (name :: anc) := by
  cases anc with
  | nil => rfl
  | cons a rest =>
    rw [if_pos (joinLabels_ne_nil (a :: rest) (List.cons_ne_nil a rest) h),
      joinLabels_cons name (a :: rest) (List.cons_ne_nil a rest)]

theorem stdout_HandleFunc_ite (c : Bool) (pattern : GoString) (dom : Domain) (st : World) :
    (if c then HandleFunc pattern dom st else st).stdout = st.stdout := by
  cases c <;> rfl

mutual
theorem addHandler_stdout (isDomainName : GoString → Nat × Bool) :
    ∀ (d : Domain) (anc : List GoString) (st : World),
      d.labelsNonEmpty = true → (∀ l ∈ anc, l ≠ []) →
      (addHandler isDomainName d (joinLabels anc) st).stdout.map Prod.fst
        = st.stdout.map Prod.fst ++ (chains d anc).map joinLabels
  | .mk name a mx ds, anc, st, hd, hanc => by
    rw [Domain.labelsNonEmpty, Bool.and_eq_true] at hd
    have hname : name ≠ [] := by
      intro h0
      rw [h0] at hd
      exact absurd hd.1 (by decide)
    have hanc2 : ∀ l ∈ name :: anc, l ≠ [] := by
      intro l hl
      rcases List.mem_cons.mp hl with h | h
      · rw [h]; exact hname
      · exact hanc l h
    rw [addHandler, fqdn_eq_joinLabels name anc hanc,
      addHandlers_stdout isDomainName ds (name :: anc) _ hd.2 hanc2,
      stdout_HandleFunc_ite, chains]
    simp
theorem addHandlers_stdout (isDomainName : GoString → Nat × Bool) :
    ∀ (ds : List Domain) (anc : List GoString) (st : World),
      labelsNonEmptyList ds = true → (∀ l ∈ anc, l ≠ []) →
      (addHandlers isDomainName ds (joinLabels anc) st).stdout.map Prod.fst
        = st.stdout.map Prod.fst ++ (chainsList ds anc).map joinLabels
  | [], anc, st, _, _ => by
    rw [addHandlers, chainsList]
    simp
  | d :: rest, anc, st, hds, hanc => by
    rw [labelsNonEmptyList, Bool.and_eq_true] at hds
    rw [addHandlers, addHandlers_stdout isDomainName rest anc _ hds.2 hanc,
      addHandler_stdout isDomainName d anc st hds.1 hanc, chainsList]
    simp
end

/-- C10: in a configuration whose labels are all non-empty, the candidate
names computed by the registration loop of `main`, in call order, are the
label chains of the nodes in pre-order, each joined own label first and root
label last with the separator `.` in between. -/
theorem addHandler_fqdn_is_joined_chain (isDomainName : GoString → Nat × Bool) (conf : Conf)
    (h : labelsNonEmptyList conf.Domains = true) :
    (mainAddHandlers isDomainName conf).stdout.map Prod.fst
      = (chainsList conf.Domains []).map joinLabels := by
  have key := addHandlers_stdout isDomainName conf.Domains [] ⟨[], []⟩ h
    (fun l hl => absurd hl (List.not_mem_nil l))
  simpa [mainAddHandlers, joinLabels] using key

theorem addHandler_fqdn_is_joined_chain_witness :
    labelsNonEmptyList exampleConfRooted.Domains = true ∧
    (mainAddHandlers (fun _ => (0, true)) exampleConfRooted).stdout.map Prod.fst
      = (chainsList exampleConfRooted.Domains []).map joinLabels :=
  ⟨by decide, addHandler_fqdn_is_joined_chain (fun _ => (0, true)) exampleConfRooted (by decide)⟩

/-! ## Shape of the result of `split255` and termination of its loop -/

/-- Loop invariant of `split255`, shape of the result: entered with
`i = p + 255`, `p ≤ len(s)` and enough fuel, the loop appends to `sx` some
chunks of exactly 255 bytes and then one last chunk of fewer than 255 bytes,
which together have the `len(s) - p` bytes of `s[p:]`. -/
theorem split255Loop_shape (s : GoString) :
    ∀ (fuel : Nat) (sx : List GoString) (p : Nat),
      p ≤ s.length → (s.length - p) / 255 + 1 ≤ fuel →
      ∃ body last, split255Loop s fuel sx p (p + 255) = .done (sx ++ (body ++ [last])) ∧
        (∀ c ∈ body, c.length = 255) ∧ last.length < 255 ∧
        last.length + 255 * body.length + p = s.length := by
  intro fuel
  induction fuel with
  | zero => intro sx p _ hf; omega
  | succ fuel ih =>
    intro sx p hp hf
    by_cases hi : p + 255 ≤ s.length
    · have hf2 : (s.length - (p + 255)) / 255 + 1 ≤ fuel := by omega
      obtain ⟨body, last, hrun, hbody, hlast, hsum⟩ :=
        ih (sx ++ [(s.drop p).take 255]) (p + 255) hi hf2
      refine ⟨(s.drop p).take 255 :: body, last, ?_, ?_, hlast, ?_⟩
      · rw [split255Loop, if_pos hi, slice_done s p hi]
        simp only [hrun, List.append_assoc, List.singleton_append, List.cons_append,
          List.nil_append]
      · intro c hc
        rcases List.mem_cons.mp hc with h | h
        · rw [h, List.length_take, List.length_drop]; omega
        · exact hbody c h
      · rw [List.length_cons]; omega
    · refine ⟨[], s.drop p, ?_, ?_, ?_, ?_⟩
      · rw [split255Loop, if_neg hi, sliceFrom_done s p hp]
        rfl
      · intro c hc
        exact absurd hc (List.not_mem_nil c)
      · rw [List.length_drop]; omega
      · rw [List.length_drop, List.length_nil]; omega

/-- Shape of the result of `split255`: chunks of exactly 255 bytes followed by
one last chunk of fewer than 255 bytes, `len(s)` bytes in all. -/
theorem split255_shape (s : GoString) (fuel : Nat) (hf : split255Fuel s.length ≤ fuel) :
    ∃ body last, split255 fuel s = .done (body ++ [last]) ∧
      (∀ c ∈ body, c.length = 255) ∧ last.length < 255 ∧
      last.length + 255 * body.length = s.length := by
  by_cases h : s.length < 255
  · refine ⟨[], s, ?_, ?_, h, ?_⟩
    · rw [split255, if_pos h]
      rfl
    · intro c hc
      exact absurd hc (List.not_mem_nil c)
    · rw [List.length_nil]; omega
  · obtain ⟨body, last, hrun, hbody, hlast, hsum⟩ :=
      split255Loop_shape s fuel [] 0 (Nat.zero_le _) (by unfold split255Fuel at hf; omega)
    refine ⟨body, last, ?_, hbody, hlast, by omega⟩
    rw [split255, if_neg h]
    simpa using hrun

/-- With too little fuel the loop of `split255` is still running: entered
with `i = p + 255` and `p ≤ len(s)`, it needs more than `(len(s) - p) / 255`
iterations. -/
theorem split255Loop_timeout (s : GoString) :
    ∀ (fuel : Nat) (sx : List GoString) (p : Nat),
      p ≤ s.length → fuel ≤ (s.length - p) / 255 →
      split255Loop s fuel sx p (p + 255) = .timeout := by
  intro fuel
  induction fuel with
  | zero => intro sx p _ _; rfl
  | succ fuel ih =>
    intro sx p hp hf
    have hi : p + 255 ≤ s.length := by omega
    rw [split255Loop, if_pos hi, slice_done s p hi]
    exact ih _ (p + 255) hi (by omega)

/-- C16: with enough fuel for its loop, `split255(s)` returns some chunks of
exactly 255 bytes followed by one last chunk, and the last chunk has the
remaining `len(s) - 255 * (number of preceding chunks)` bytes. -/
theorem split255_full_chunks_then_remainder (s : GoString) (fuel : Nat)
    (hf : split255Fuel s.length ≤ fuel) :
    ∃ body last, split255 fuel s = .done (body ++ [last]) ∧
      (∀ c ∈ body, c.length = 255) ∧
      255 * body.length ≤ s.length ∧ last.length = s.length - 255 * body.length := by
  obtain ⟨body, last, hrun, hbody, _, hsum⟩ := split255_shape s fuel hf
  exact ⟨body, last, hrun, hbody, by omega, by omega⟩

theorem split255_full_chunks_then_remainder_witness :
    split255Fuel (List.replicate 600 (98 : UInt8)).length ≤ 3 ∧
    ∃ body last, split255 3 (List.replicate 600 (98 : UInt8)) = .done (body ++ [last]) ∧
      (∀ c ∈ body, c.length = 255) ∧
      255 * body.length ≤ (List.replicate 600 (98 : UInt8)).length ∧
      last.length = (List.replicate 600 (98 : UInt8)).length - 255 * body.length :=
  ⟨by rw [List.length_replicate]; decide,
    split255_full_chunks_then_remainder _ _ (by rw [List.length_replicate]; decide)⟩

/-- C17: with enough fuel for its loop, `split255(s)` returns exactly
`floor(len(s)/255) + 1` chunks; the result is never the empty list, and when
`len(s)` is a positive multiple of 255 its last chunk is the empty string. -/
theorem split255_count_floor (s : GoString) (fuel : Nat) (hf : split255Fuel s.length ≤ fuel) :
    ∃ sx, split255 fuel s = .done sx ∧ sx.length = s.length / 255 + 1 ∧ sx ≠ [] ∧
      (0 < s.length → s.length % 255 = 0 → sx.getLast? = some []) := by
  obtain ⟨body, last, hrun, _, hlast, hsum⟩ := split255_shape s fuel hf
  refine ⟨body ++ [last], hrun, ?_, ?_, ?_⟩
  · rw [List.length_append, List.length_singleton]; omega
  · intro h
    have := congrArg List.length h
    rw [List.length_append, List.length_singleton, List.length_nil] at this
    omega
  · intro _ hmod
    have h0 : last.length = 0 := by omega
    rw [List.getLast?_append, List.getLast?_singleton, List.length_eq_zero.mp h0]
    rfl

theorem split255_count_floor_witness :
    split255Fuel (List.replicate 510 (99 : UInt8)).length ≤ 3 ∧
    ∃ sx, split255 3 (List.replicate 510 (99 : UInt8)) = .done sx ∧
      sx.length = (List.replicate 510 (99 : UInt8)).length / 255 + 1 ∧ sx ≠ [] ∧
      (0 < (List.replicate 510 (99 : UInt8)).length →
        (List.replicate 510 (99 : UInt8)).length % 255 = 0 → sx.getLast? = some []) :=
  ⟨by rw [List.length_replicate]; decide,
    split255_count_floor _ _ (by rw [List.length_replicate]; decide)⟩

/-- C20: the loop of `split255`, started as the function starts it
(`sx = []`, `p = 0`, `i = 255`), finishes for every string `s` within
`floor(len(s)/255) + 1` iterations, and not earlier: with that much fuel or
more it reaches the break branch and returns, so no slice it took was out
of range, and with `floor(len(s)/255)` iterations it is still running. -/
theorem split255Loop_terminates (s : GoString) (fuel : Nat)
    (hf : s.length / 255 + 1 ≤ fuel) :
    (∃ sx, split255Loop s fuel [] 0 255 = .done sx) ∧
      split255Loop s (s.length / 255) [] 0 255 = .timeout ∧
      (∃ sx, split255 fuel s = .done sx) := by
  obtain ⟨body, last, hrun, _, _, _⟩ :=
    split255Loop_shape s fuel [] 0 (Nat.zero_le _) (by omega)
  obtain ⟨sx, hsx, _⟩ := split255_spec s fuel hf
  exact ⟨⟨_, hrun⟩, split255Loop_timeout s _ [] 0 (Nat.zero_le _) (by omega), ⟨sx, hsx⟩⟩

theorem split255Loop_terminates_witness :
    (List.replicate 255 (100 : UInt8)).length / 255 + 1 ≤ 2 ∧
    (∃ sx, split255Loop (List.replicate 255 (100 : UInt8)) 2 [] 0 255 = .done sx) ∧
      split255Loop (List.replicate 255 (100 : UInt8))
        ((List.replicate 255 (100 : UInt8)).length / 255) [] 0 255 = .timeout ∧
      (∃ sx, split255 2 (List.replicate 255 (100 : UInt8)) = .done sx) :=
  ⟨by rw [List.length_replicate],
    split255Loop_terminates _ 2 (by rw [List.length_replicate])⟩

/-! ## Time-to-live conversion -/

theorem uint32_eq_emod (t : Int) : (uint32 t : Int) = t % 2 ^ 32 := by
  unfold uint32
  exact Int.toNat_of_nonneg (Int.emod_nonneg t (by norm_num))

theorem uint32_eq_iff (t : Int) : (uint32 t : Int) = t ↔ 0 ≤ t ∧ t < 2 ^ 32 := by
  constructor
  · intro h
    rw [uint32_eq_emod] at h
    constructor
    · rw [← h]; exact Int.emod_nonneg t (by norm_num)
    · rw [← h]; exact Int.emod_lt_of_pos t (by norm_num)
  · rintro ⟨h0, h1⟩
    exact uint32_of_range t h0 h1

/-- C19: for a request with a single question, the record the handler emits
carries the configured TTL `t` reduced modulo `2^32`: the address TTL for a
question of type 1, the mail-exchange TTL for a question of type 15; the
TTL carried equals `t` exactly when `0 ≤ t < 2^32`. -/
theorem handler_ttl_mod (dom : Domain) (w : List Msg) (req : Msg) (q : Question)
    (hq : req.Question = [q]) :
    (q.Qtype = 1 → ∃ m r, handler dom w req = w ++ [m] ∧ m.Answer = [r] ∧
      (r.Hdr.Ttl : Int) = dom.A.Ttl % 2 ^ 32 ∧
      ((r.Hdr.Ttl : Int) = dom.A.Ttl ↔ 0 ≤ dom.A.Ttl ∧ dom.A.Ttl < 2 ^ 32)) ∧
    (q.Qtype = 15 → ∃ m r, handler dom w req = w ++ [m] ∧ m.Answer = [r] ∧
      (r.Hdr.Ttl : Int) = dom.Mx.Ttl % 2 ^ 32 ∧
      ((r.Hdr.Ttl : Int) = dom.Mx.Ttl ↔ 0 ≤ dom.Mx.Ttl ∧ dom.Mx.Ttl < 2 ^ 32)) := by
  constructor
  · intro ht
    refine ⟨_, NewA q.Name dom.A.Ip (uint32 dom.A.Ttl), handler_eq dom w req, ?_,
      uint32_eq_emod _, uint32_eq_iff _⟩
    simp [hq, questionAnswers, ht]
  · intro ht
    refine ⟨_, NewMX q.Name dom.Mx.Content dom.Mx.Priority (uint32 dom.Mx.Ttl),
      handler_eq dom w req, ?_, uint32_eq_emod _, uint32_eq_iff _⟩
    simp [hq, questionAnswers, ht]

theorem handler_ttl_mod_witness :
    (query (str "t.") 1).Question = [⟨str "t.", 1, ClassINET⟩] ∧
    ∃ m r, handler wideTtlDomain [] (query (str "t.") 1) = [] ++ [m] ∧ m.Answer = [r] ∧
      (r.Hdr.Ttl : Int) = wideTtlDomain.A.Ttl % 2 ^ 32 ∧
      ((r.Hdr.Ttl : Int) = wideTtlDomain.A.Ttl ↔
        0 ≤ wideTtlDomain.A.Ttl ∧ wideTtlDomain.A.Ttl < 2 ^ 32) :=
  ⟨rfl, (handler_ttl_mod wideTtlDomain [] (query (str "t.") 1) ⟨str "t.", 1, ClassINET⟩ rfl).1
    rfl⟩

/-! ## The server value built by `serve` -/

/-- C15, refuted as stated: with an empty secret the server built by `serve`
still has a shared-secret entry, the empty secret under the key `name`; with
no `--tsig` flag both servers of `main` carry the entry `"" ↦ ""`. -/
theorem serve_empty_secret_has_entry :
    (serve (str "udp") (str "key.") []).TsigSecret = [(str "key.", [])] ∧
    (serve (str "udp") (str "key.") []).TsigSecret ≠ [] ∧
    mainServers [] = .done [⟨str ":53", str "tcp", [([], [])]⟩, ⟨str ":53", str "udp", [([], [])]⟩] := by
  refine ⟨rfl, ?_, ?_⟩
  · decide
  · decide

/-- C15, amended: the server built by `serve(net, name, secret)` listens on
`:53` with the given transport and always has exactly one shared-secret
entry, `name ↦ secret`, whether or not `secret` is empty; the two servers of
`main` are built from the same `name` and `secret`. -/
theorem serve_always_one_entry (net name secret : GoString) :
    (serve net name secret).TsigSecret = [(name, secret)] ∧
    (serve net name secret).Addr = str ":53" ∧ (serve net name secret).Net = net ∧
    ∀ tsig srv, mainTsig tsig = .done (name, secret) →
      mainServers tsig = .done srv → ∀ x ∈ srv, x.TsigSecret = [(name, secret)] := by
  refine ⟨rfl, rfl, rfl, ?_⟩
  intro tsig srv h1 h2 x hx
  rw [mainServers, h1] at h2
  injection h2 with h2
  rw [← h2] at hx
  rcases List.mem_cons.mp hx with h | h
  · rw [h]; rfl
  · rw [List.mem_singleton.mp h]; rfl

/-! ## Registration as a pass over the nodes in pre-order -/

theorem Fqdn_of_IsFqdn (s : GoString) (h : IsFqdn s = true) : Fqdn s = s := by
  unfold Fqdn
  rw [if_pos h]

theorem mapGet_filter_ne (m : List (GoString × Domain)) (k k' : GoString) (h : k' ≠ k) :
    mapGet (m.filter (fun e => e.1 != k)) k' = mapGet m k' := by
  unfold mapGet
  induction m with
  | nil => rfl
  | cons e m ih =>
    obtain ⟨a, b⟩ := e
    by_cases hak : a = k
    · have hk'a : (k' == a) = false := by
        rw [beq_eq_false_iff_ne]; rw [hak]; exact h
      simp only [List.filter_cons, hak, bne_self_eq_false, Bool.false_eq_true, if_false,
        List.lookup_cons]
      rw [hak] at hk'a
      rw [ih, hk'a]
    · have hne : (a != k) = true := by
        rw [bne_iff_ne]; exact hak
      simp only [List.filter_cons, hne, if_true, List.lookup_cons, ih]

theorem mapGet_mapSet (m : List (GoString × Domain)) (k : GoString) (v : Domain)
    (k' : GoString) :
    mapGet (mapSet m k v) k' = if k' = k then some v else mapGet m k' := by
  by_cases h : k' = k
  · rw [if_pos h, h]
    unfold mapGet mapSet
    simp [List.lookup_cons]
  · rw [if_neg h, ← mapGet_filter_ne m k k' h]
    have hb : (k' == k) = false := by
      rw [beq_eq_false_iff_ne]; exact h
    unfold mapGet mapSet
    simp only [List.lookup_cons, hb]

theorem stdout_registerStep (isDomainName : GoString → Nat × Bool) (st : World)
    (e : GoString × Domain) :
    (registerStep isDomainName st e).stdout = st.stdout ++ [(e.1, (isDomainName e.1).1)] := by
  unfold registerStep
  cases IsFqdn e.1 <;> rfl

theorem mapGet_registerStep (isDomainName : GoString → Nat × Bool) (st : World)
    (e : GoString × Domain) (k : GoString) :
    mapGet (registerStep isDomainName st e).mux k
      = if IsFqdn e.1 = true ∧ e.1 = k then some e.2 else mapGet st.mux k := by
  unfold registerStep
  by_cases hf : IsFqdn e.1 = true
  · simp only [hf, if_true, HandleFunc, Fqdn_of_IsFqdn e.1 hf, mapGet_mapSet, true_and]
    by_cases hk : k = e.1
    · rw [if_pos hk, if_pos hk.symm]
    · rw [if_neg hk, if_neg (fun h => hk h.symm)]
  · simp only [hf, false_and, if_false, Bool.false_eq_true]

theorem lastBound_cons (k : GoString) (e : GoString × Domain) (vs : List (GoString × Domain)) :
    lastBound k (e :: vs)
      = match lastBound k vs with
        | some d => some d
        | none => if IsFqdn e.1 = true ∧ e.1 = k then some e.2 else none := by
  unfold lastBound
  rw [List.reverse_cons, List.find?_append]
  cases hfind : List.find? (fun e => IsFqdn e.1 && e.1 == k) vs.reverse with
  | some x => rfl
  | none =>
    by_cases h : IsFqdn e.1 = true ∧ e.1 = k
    · simp [h.1, h.2]
    · have hb : (IsFqdn e.1 && e.1 == k) = false := by
        rw [Bool.and_eq_false_iff]
        by_cases h1 : IsFqdn e.1 = true
        · right
          rw [beq_eq_false_iff_ne]
          exact fun h2 => h ⟨h1, h2⟩
        · left
          exact Bool.eq_false_iff.mpr h1
      simp [hb, h]

/-- A pass of `registerStep` over a list of visits prints one `Adding:` line
per visit, in order. -/
theorem stdout_foldl_registerStep (isDomainName : GoString → Nat × Bool)
    (vs : List (GoString × Domain)) :
    ∀ st : World, (vs.foldl (registerStep isDomainName) st).stdout
      = st.stdout ++ vs.map (fun e => (e.1, (isDomainName e.1).1)) := by
  induction vs with
  | nil => intro st; simp
  | cons e vs ih =>
    intro st
    rw [List.foldl_cons, ih, stdout_registerStep]
    simp

/-- After a pass of `registerStep` over a list of visits the table maps a name
to the node of the last fully qualified visit with that name, and is as
before for the other names. -/
theorem mapGet_foldl_registerStep (isDomainName : GoString → Nat × Bool)
    (vs : List (GoString × Domain)) (k : GoString) :
    ∀ st : World, mapGet (vs.foldl (registerStep isDomainName) st).mux k
      = match lastBound k vs with
        | some d => some d
        | none => mapGet st.mux k := by
  induction vs with
  | nil => intro st; rfl
  | cons e vs ih =>
    intro st
    rw [List.foldl_cons, ih, lastBound_cons, mapGet_registerStep]
    cases lastBound k vs with
    | some d => rfl
    | none =>
      by_cases h : IsFqdn e.1 = true ∧ e.1 = k
      · simp only [if_pos h]
      · simp only [if_neg h]

mutual
/-- The call `addHandler` on a node is the pass of `registerStep` over the
nodes of its tree in pre-order. -/
theorem addHandler_eq_foldl (isDomainName : GoString → Nat × Bool) :
    ∀ (d : Domain) (tld : GoString) (st : World),
      addHandler isDomainName d tld st = (visits d tld).foldl (registerStep isDomainName) st
  | .mk name a mx ds, tld, st => by
    rw [addHandler, visits, List.foldl_cons,
      ← addHandlers_eq_foldl isDomainName ds (candidate name tld)]
    rfl
/-- The loop over a list of nodes is the pass of `registerStep` over the nodes
of the forest in pre-order. -/
theorem addHandlers_eq_foldl (isDomainName : GoString → Nat × Bool) :
    ∀ (ds : List Domain) (tld : GoString) (st : World),
      addHandlers isDomainName ds tld st
        = (visitsList ds tld).foldl (registerStep isDomainName) st
  | [], tld, st => by
    rw [addHandlers, visitsList]
    rfl
  | d :: rest, tld, st => by
    rw [addHandlers, visitsList, List.foldl_append,
      ← addHandler_eq_foldl isDomainName d tld st,
      ← addHandlers_eq_foldl isDomainName rest tld]
end

theorem lastBound_isSome (k : GoString) (vs : List (GoString × Domain)) :
    (lastBound k vs).isSome = true ↔ ∃ e ∈ vs, IsFqdn e.1 = true ∧ e.1 = k := by
  unfold lastBound
  rw [Option.isSome_map', List.find?_isSome]
  constructor
  · rintro ⟨e, he, hp⟩
    rw [Bool.and_eq_true, beq_iff_eq] at hp
    exact ⟨e, List.mem_reverse.mp he, hp⟩
  · rintro ⟨e, he, hp⟩
    refine ⟨e, List.mem_reverse.mpr he, ?_⟩
    rw [Bool.and_eq_true, beq_iff_eq]
    exact hp

theorem mainAddHandlers_eq_foldl (isDomainName : GoString → Nat × Bool) (conf : Conf) :
    mainAddHandlers isDomainName conf
      = (visitsList conf.Domains []).foldl (registerStep isDomainName) ⟨[], []⟩ := by
  unfold mainAddHandlers
  exact addHandlers_eq_foldl isDomainName conf.Domains [] ⟨[], []⟩

/-- The candidate names printed by the registration loop of `main` are the
candidate names of the nodes in pre-order. -/
theorem mainAddHandlers_stdout (isDomainName : GoString → Nat × Bool) (conf : Conf) :
    (mainAddHandlers isDomainName conf).stdout.map Prod.fst
      = (visitsList conf.Domains []).map Prod.fst := by
  rw [mainAddHandlers_eq_foldl, stdout_foldl_registerStep]
  simp

/-- The table built by the registration loop of `main` maps a name to the
node of the last fully qualified visit with that name. -/
theorem mainAddHandlers_mapGet (isDomainName : GoString → Nat × Bool) (conf : Conf)
    (k : GoString) :
    mapGet (mainAddHandlers isDomainName conf).mux k
      = lastBound k (visitsList conf.Domains []) := by
  rw [mainAddHandlers_eq_foldl, mapGet_foldl_registerStep]
  cases lastBound k (visitsList conf.Domains []) <;> rfl

/-- A name is bound by the registration loop of `main` exactly when it is the
candidate name of some node and fully qualified. -/
theorem mainAddHandlers_bound_iff (isDomainName : GoString → Nat × Bool) (conf : Conf)
    (k : GoString) :
    (mapGet (mainAddHandlers isDomainName conf).mux k).isSome = true ↔
      (k ∈ (mainAddHandlers isDomainName conf).stdout.map Prod.fst ∧ IsFqdn k = true) := by
  rw [mainAddHandlers_mapGet, lastBound_isSome, mainAddHandlers_stdout]
  constructor
  · rintro ⟨e, he, hf, rfl⟩
    exact ⟨List.mem_map_of_mem Prod.fst he, hf⟩
  · rintro ⟨hk, hf⟩
    obtain ⟨e, he, rfl⟩ := List.mem_map.mp hk
    exact ⟨e, he, hf, rfl⟩

theorem getLast?_of_IsFqdn (k : GoString) (h : IsFqdn k = true) : k.getLast? = some 46 := by
  unfold IsFqdn at h
  cases hl : k.getLast? with
  | none => rw [hl] at h; exact absurd h (by decide)
  | some c =>
    rw [hl] at h
    rw [beq_iff_eq.mp h]

/-! ## Which nodes get a binding -/

/-- C11, refuted as stated: the candidate name `a..b.` has an empty label, yet
whatever `dns.IsDomainName` reports about it the registration loop binds it:
the validity result is discarded and the name ends with the root separator. -/
theorem emptyLabelConf_is_bound :
    ¬ ∃ isDomainName, mapGet (mainAddHandlers isDomainName emptyLabelConf).mux (str "a..b.")
      = none := by
  rintro ⟨isDomainName, h⟩
  have hb : mapGet (mainAddHandlers isDomainName emptyLabelConf).mux (str "a..b.")
      = some (leaf (str "a..b.")) := rfl
  rw [hb] at h
  exact absurd h (by simp)

/-- C11, amended: for a node whose candidate name `k` is reported as not a
legal domain name, the registration loop of `main` leaves `k` unbound exactly
when `k` does not end with the root separator; an illegal name that ends with
the root separator is bound. -/
theorem illegal_name_bound_iff_rooted (isDomainName : GoString → Nat × Bool) (conf : Conf)
    (k : GoString) (hk : k ∈ (mainAddHandlers isDomainName conf).stdout.map Prod.fst)
    (_hbad : (isDomainName k).2 = false) :
    (mapGet (mainAddHandlers isDomainName conf).mux k = none ↔ IsFqdn k = false) ∧
      ((mapGet (mainAddHandlers isDomainName conf).mux k).isSome = true ↔ IsFqdn k = true) := by
  have key := mainAddHandlers_bound_iff isDomainName conf k
  constructor
  · rw [← Option.not_isSome_iff_eq_none, key, ← Bool.not_eq_true]
    constructor
    · exact fun h hf => h ⟨hk, hf⟩
    · exact fun h hf => h hf.2
  · rw [key]
    exact ⟨fun h => h.2, fun h => ⟨hk, h⟩⟩

theorem illegal_name_bound_iff_rooted_witness :
    str "a..b." ∈ (mainAddHandlers (fun _ => (0, false)) emptyLabelConf).stdout.map Prod.fst ∧
    ((fun _ => (0, false)) (str "a..b.") : Nat × Bool).2 = false ∧
    (mapGet (mainAddHandlers (fun _ => (0, false)) emptyLabelConf).mux (str "a..b.") = none ↔
      IsFqdn (str "a..b.") = false) ∧
    ((mapGet (mainAddHandlers (fun _ => (0, false)) emptyLabelConf).mux (str "a..b.")).isSome
      = true ↔ IsFqdn (str "a..b.") = true) :=
  ⟨by decide, rfl,
    illegal_name_bound_iff_rooted (fun _ => (0, false)) emptyLabelConf (str "a..b.")
      (by decide) rfl⟩

/-- C12: after the registration loop of `main` on a configuration, a binding
is installed for a node of the configuration exactly when its candidate name
is fully qualified: a name is bound if and only if it is the fully qualified
candidate name of some node of `conf.Domains` (visited in pre-order from the
empty parent name), every node's candidate name is bound or not as it ends
with the root separator or not, and every key of the table ends with the
root separator `.`. -/
theorem bound_iff_fully_qualified (isDomainName : GoString → Nat × Bool) (conf : Conf) :
    (∀ k, (mapGet (mainAddHandlers isDomainName conf).mux k).isSome = true ↔
      ∃ e ∈ visitsList conf.Domains [], IsFqdn e.1 = true ∧ e.1 = k) ∧
    (∀ e ∈ visitsList conf.Domains [],
      (mapGet (mainAddHandlers isDomainName conf).mux e.1).isSome = IsFqdn e.1) ∧
    (∀ k ∈ (mainAddHandlers isDomainName conf).mux.map Prod.fst,
      k.getLast? = some 46 ∧ ∃ e ∈ visitsList conf.Domains [], e.1 = k) := by
  have key : ∀ k, (mapGet (mainAddHandlers isDomainName conf).mux k).isSome = true ↔
      ∃ e ∈ visitsList conf.Domains [], IsFqdn e.1 = true ∧ e.1 = k := by
    intro k
    rw [mainAddHandlers_mapGet, lastBound_isSome]
  refine ⟨key, ?_, ?_⟩
  · intro e he
    cases hf : IsFqdn e.1 with
    | true => exact (key e.1).mpr ⟨e, he, hf, rfl⟩
    | false =>
      rw [← Bool.not_eq_true]
      intro hs
      obtain ⟨x, _, hx, hxe⟩ := (key e.1).mp hs
      rw [hxe, hf] at hx
      exact absurd hx (by decide)
  · intro k hk
    obtain ⟨p, hp, rfl⟩ := List.mem_map.mp hk
    have hsome : (mapGet (mainAddHandlers isDomainName conf).mux p.1).isSome = true := by
      unfold mapGet
      rw [List.lookup_isSome_iff]
      exact ⟨p, hp, beq_self_eq_true p.1⟩
    obtain ⟨x, hx, hfx, hxe⟩ := (key p.1).mp hsome
    exact ⟨getLast?_of_IsFqdn p.1 (hxe ▸ hfx), x, hx, hxe⟩

theorem bound_iff_fully_qualified_witness :
    (mapGet (mainAddHandlers (fun _ => (0, true)) exampleConfRooted).mux
      (str "www.example.")).isSome = true ∧
    (mapGet (mainAddHandlers (fun _ => (0, true)) exampleConfRooted).mux
      (str "example.")).isSome = true ∧
    (mapGet (mainAddHandlers (fun _ => (0, true)) exampleConf).mux
      (str "www.example")).isSome = false ∧
    (mapGet (mainAddHandlers (fun _ => (0, true)) exampleConf).mux
      (str "example")).isSome = false :=
  ⟨((bound_iff_fully_qualified (fun _ => (0, true)) exampleConfRooted).1
      (str "www.example.")).mpr
      ⟨(str "www.example.", .mk (str "www") ⟨[5, 6, 7, 8], 60⟩ ⟨[], 0, 0⟩ []),
        List.mem_cons_of_mem _ (List.mem_cons_self _ _), rfl, rfl⟩,
    ((bound_iff_fully_qualified (fun _ => (0, true)) exampleConfRooted).1
      (str "example.")).mpr
      ⟨(str "example.", .mk (str "example.") ⟨[1, 2, 3, 4], 300⟩ ⟨[], 0, 0⟩
          [.mk (str "www") ⟨[5, 6, 7, 8], 60⟩ ⟨[], 0, 0⟩ []]),
        List.mem_cons_self _ _, rfl, rfl⟩,
    ((bound_iff_fully_qualified (fun _ => (0, true)) exampleConf).2.1
      (str "www.example", .mk (str "www") ⟨[5, 6, 7, 8], 60⟩ ⟨[], 0, 0⟩ [])
      (List.mem_cons_of_mem _ (List.mem_cons_self _ _))).trans rfl,
    ((bound_iff_fully_qualified (fun _ => (0, true)) exampleConf).2.1
      (str "example", .mk (str "example") ⟨[1, 2, 3, 4], 300⟩ ⟨[], 0, 0⟩
          [.mk (str "www") ⟨[5, 6, 7, 8], 60⟩ ⟨[], 0, 0⟩ []])
      (List.mem_cons_self _ _)).trans rfl⟩

/-- C14: after the registration loop of `main`, where the nodes are visited
in pre-order with the candidate names printed, a name is mapped to the node
visited last among the nodes whose candidate name is that name and fully
qualified; an earlier binding of the same name is overwritten. -/
theorem later_visit_wins (isDomainName : GoString → Nat × Bool) (conf : Conf)
    (k : GoString) :
    (mainAddHandlers isDomainName conf).stdout.map Prod.fst
        = (visitsList conf.Domains []).map Prod.fst ∧
      mapGet (mainAddHandlers isDomainName conf).mux k
        = lastBound k (visitsList conf.Domains []) :=
  ⟨mainAddHandlers_stdout isDomainName conf, mainAddHandlers_mapGet isDomainName conf k⟩

theorem later_visit_wins_witness :
    mapGet (mainAddHandlers (fun _ => (1, true)) duplicateConf).mux (str "a.")
      = some (.mk (str "a.") ⟨[2, 2, 2, 2], 2⟩ ⟨[], 0, 0⟩ []) ∧
    (mainAddHandlers (fun _ => (1, true)) duplicateConf).mux.length = 1 :=
  ⟨(later_visit_wins (fun _ => (1, true)) duplicateConf (str "a.")).2.trans rfl, rfl⟩

/-! ## Number of candidate names in a uniform tree -/

theorem visitsList_length (ds : List Domain) (tld : GoString) (n : Nat)
    (h : ∀ c ∈ ds, ∀ t, (visits c t).length = n) :
    (visitsList ds tld).length = ds.length * n := by
  induction ds with
  | nil => rw [visitsList]; simp
  | cons d rest ih =>
    rw [visitsList, List.length_append, h d (List.mem_cons_self d rest) tld,
      ih (fun c hc => h c (List.mem_cons_of_mem d hc)), List.length_cons, Nat.succ_mul,
      Nat.add_comm]

theorem visits_length_uniform (B : Nat) :
    ∀ (D : Nat) (d : Domain) (tld : GoString),
      uniformTree B D d = true → (visits d tld).length = uniformNodes B D := by
  intro D
  induction D with
  | zero =>
    intro d tld hu
    obtain ⟨name, a, mx, ds⟩ := d
    rw [uniformTree, Domain.Domains, List.isEmpty_iff] at hu
    rw [visits, hu, visitsList]
    rfl
  | succ D ih =>
    intro d tld hu
    obtain ⟨name, a, mx, ds⟩ := d
    rw [uniformTree, Domain.Domains, Bool.and_eq_true, beq_iff_eq, List.all_eq_true] at hu
    rw [visits, List.length_cons,
      visitsList_length ds _ (uniformNodes B D) (fun c hc t => ih c t (hu.2 c hc)), hu.1,
      uniformNodes, Nat.add_comm]

theorem uniformNodes_mul (b : Nat) :
    ∀ D : Nat, uniformNodes (b + 1) D * b + 1 = (b + 1) ^ (D + 1) := by
  intro D
  induction D with
  | zero => rw [uniformNodes]; ring
  | succ D ih =>
    rw [uniformNodes, pow_succ, ← ih]
    ring

theorem uniformNodes_formula (B D : Nat) (hB : 2 ≤ B) :
    uniformNodes B D = (B ^ (D + 1) - 1) / (B - 1) := by
  obtain ⟨b, rfl⟩ : ∃ b, B = b + 1 := ⟨B - 1, by omega⟩
  have h := uniformNodes_mul b D
  rw [Nat.add_sub_cancel, ← h, Nat.add_sub_cancel]
  exact (Nat.mul_div_cancel _ (by omega)).symm

/-- C13: for a tree of depth `D` with uniform branching factor `B ≥ 2`, the
call `addHandler` prints exactly `(B^(D+1) - 1) / (B - 1)` candidate names,
whatever the labels, the parent name, the earlier state and the results of
`dns.IsDomainName` are. -/
theorem addHandler_candidate_count (isDomainName : GoString → Nat × Bool) (B D : Nat)
    (d : Domain) (tld : GoString) (st : World) (hB : 2 ≤ B)
    (hu : uniformTree B D d = true) :
    (addHandler isDomainName d tld st).stdout.length
      = st.stdout.length + (B ^ (D + 1) - 1) / (B - 1) := by
  rw [addHandler_eq_foldl, stdout_foldl_registerStep, List.length_append, List.length_map,
    visits_length_uniform B D d tld hu, uniformNodes_formula B D hB]

theorem addHandler_candidate_count_witness :
    2 ≤ 2 ∧ uniformTree 2 1 binaryTree = true ∧
    (addHandler (fun _ => (0, false)) binaryTree [] ⟨[], []⟩).stdout.length
      = (⟨[], []⟩ : World).stdout.length + (2 ^ (1 + 1) - 1) / (2 - 1) :=
  ⟨by decide, by decide,
    addHandler_candidate_count (fun _ => (0, false)) 2 1 binaryTree [] ⟨[], []⟩ (by decide)
      (by decide)⟩

/-! ## All or nothing below a top-level node -/

theorem IsFqdn_append (x tld : GoString) (h : tld ≠ []) : IsFqdn (x ++ tld) = IsFqdn tld := by
  unfold IsFqdn
  rw [List.getLast?_append]
  cases hl : tld.getLast? with
  | none => exact absurd (List.getLast?_eq_none_iff.mp hl) h
  | some c => rfl

theorem candidate_of_ne_nil (name tld : GoString) (h : tld ≠ []) :
    candidate name tld ≠ [] ∧ IsFqdn (candidate name tld) = IsFqdn tld := by
  unfold candidate
  rw [if_pos h]
  constructor
  · intro h0
    exact h (List.append_eq_nil.mp h0).2
  · exact IsFqdn_append _ tld h

mutual
/-- Below a non-empty parent name every candidate name ends as the parent
name ends. -/
theorem visits_IsFqdn :
    ∀ (d : Domain) (tld : GoString), tld ≠ [] →
      ∀ e ∈ visits d tld, IsFqdn e.1 = IsFqdn tld
  | .mk name a mx ds, tld, h => by
    intro e he
    rw [visits] at he
    rcases List.mem_cons.mp he with h1 | h1
    · rw [h1]
      exact (candidate_of_ne_nil name tld h).2
    · rw [visitsList_IsFqdn ds (candidate name tld) (candidate_of_ne_nil name tld h).1 e h1]
      exact (candidate_of_ne_nil name tld h).2
theorem visitsList_IsFqdn :
    ∀ (ds : List Domain) (tld : GoString), tld ≠ [] →
      ∀ e ∈ visitsList ds tld, IsFqdn e.1 = IsFqdn tld
  | [], tld, _ => by
    intro e he
    rw [visitsList] at he
    exact absurd he (List.not_mem_nil e)
  | d :: rest, tld, h => by
    intro e he
    rw [visitsList] at he
    rcases List.mem_append.mp he with h1 | h1
    · exact visits_IsFqdn d tld h e h1
    · exact visitsList_IsFqdn rest tld h e h1
end

/-- Below a top-level node with a non-empty label every candidate name ends
as the label ends. -/
theorem visits_top_IsFqdn (d : Domain) (h : d.Name ≠ []) :
    ∀ e ∈ visits d [], IsFqdn e.1 = IsFqdn d.Name := by
  obtain ⟨name, a, mx, ds⟩ := d
  intro e he
  rw [visits] at he
  have hc : candidate name [] = name := rfl
  rw [hc] at he
  rcases List.mem_cons.mp he with h1 | h1
  · rw [h1]
    rfl
  · exact visitsList_IsFqdn ds name h e h1

theorem mux_foldl_registerStep_of_not_IsFqdn (isDomainName : GoString → Nat × Bool)
    (vs : List (GoString × Domain)) (h : ∀ e ∈ vs, IsFqdn e.1 = false) :
    ∀ st : World, (vs.foldl (registerStep isDomainName) st).mux = st.mux := by
  induction vs with
  | nil => intro st; rfl
  | cons e vs ih =>
    intro st
    rw [List.foldl_cons, ih (fun x hx => h x (List.mem_cons_of_mem e hx))]
    unfold registerStep
    rw [h e (List.mem_cons_self e vs)]
    rfl

/-- C18: for a top-level node with a non-empty label, registration is all or
nothing over its subtree.  If the label ends with `.`, the guard passes at
every node of the subtree and the candidate name of each of them is bound
afterwards; if it does not, the guard fails at every node of the subtree and
the call leaves the table as it was. -/
theorem addHandler_all_or_nothing (isDomainName : GoString → Nat × Bool) (d : Domain)
    (st : World) (h : d.Name ≠ []) :
    (IsFqdn d.Name = true → ∀ e ∈ visits d [], IsFqdn e.1 = true ∧
      (mapGet (addHandler isDomainName d [] st).mux e.1).isSome = true) ∧
    (IsFqdn d.Name = false → (∀ e ∈ visits d [], IsFqdn e.1 = false) ∧
      (addHandler isDomainName d [] st).mux = st.mux) := by
  constructor
  · intro hf e he
    have hfe : IsFqdn e.1 = true := by rw [visits_top_IsFqdn d h e he, hf]
    refine ⟨hfe, ?_⟩
    rw [addHandler_eq_foldl, mapGet_foldl_registerStep]
    have hs : (lastBound e.1 (visits d [])).isSome = true :=
      (lastBound_isSome e.1 (visits d [])).mpr ⟨e, he, hfe, rfl⟩
    cases hl : lastBound e.1 (visits d []) with
    | none => rw [hl] at hs; exact absurd hs (by decide)
    | some x => rfl
  · intro hf
    have hall : ∀ e ∈ visits d [], IsFqdn e.1 = false := by
      intro e he
      rw [visits_top_IsFqdn d h e he, hf]
    refine ⟨hall, ?_⟩
    rw [addHandler_eq_foldl]
    exact mux_foldl_registerStep_of_not_IsFqdn isDomainName _ hall st

theorem addHandler_all_or_nothing_witness :
    binaryTree.Name ≠ [] ∧
    (IsFqdn binaryTree.Name = true → ∀ e ∈ visits binaryTree [], IsFqdn e.1 = true ∧
      (mapGet (addHandler (fun _ => (0, false)) binaryTree [] ⟨[], []⟩).mux e.1).isSome = true) ∧
    (IsFqdn binaryTree.Name = false → (∀ e ∈ visits binaryTree [], IsFqdn e.1 = false) ∧
      (addHandler (fun _ => (0, false)) binaryTree [] ⟨[], []⟩).mux = (⟨[], []⟩ : World).mux) :=
  ⟨by decide, addHandler_all_or_nothing (fun _ => (0, false)) binaryTree ⟨[], []⟩ (by decide)⟩

end Fdns
